import Mathlib

/-!
Shallow embedding of the merge pipeline of `board-game-merger`
(src/board_game_merger/merge.py, function `merge_files`), together with the
configuration normalization it performs (src/board_game_merger/config.py).

Modelling decisions, each traceable to the source:

* A record (one ndjson line loaded into a polars frame) is an ordered
  association list from field name to a JSON-like value.  Scanned rows all
  carry the schema's columns in schema order; a missing field is null.
* `pl.scan_ndjson(..., schema=..., ignore_errors=True)`: each raw input row is
  coerced to the declared schema; rows that do not fit their declared types
  are dropped silently.
* `data.sort(by=latest_col, descending=True, nulls_last=True)` and
  `data.sort(sort_fields, descending=sort_descending)` are polars sorts
  without `maintain_order`, whose tie order is unspecified; they are embedded
  as a relation: the output is any permutation of the input that is pairwise
  ordered by the requested comparison.
* `unique(subset=keys, keep="first")` keeps the first row (in the current
  frame order) of every distinct key tuple; without `maintain_order` the
  output order of the kept rows is again unspecified, hence a permutation.
* The cleaning pass (`drop_empty` / `sort_keys`) mirrors the Python loop:
  `{k: v for k, v in row.items() if v}` uses Python truthiness, and
  `json.dump(..., sort_keys=True)` orders the fields of a line by name.
* Filesystem effects are reduced to: does the output file exist, and the map
  from path to the raw rows that path holds.  Path resolution is the
  identity.  The `progress_bar` flag only drives a tqdm display and is not
  modelled.
-/

namespace BoardGameMerger

/-- JSON-like cell values as they appear in a polars frame / ndjson line.
Nested structs are not needed by any claim and are omitted from the value
universe. -/
inductive Value where
  | vNull : Value
  | vBool (b : Bool) : Value
  | vInt (n : Int) : Value
  | vStr (s : String) : Value
  | vList (items : List Value) : Value

mutual

def Value.decEq : (a b : Value) → Decidable (a = b)
  | .vNull, .vNull => isTrue rfl
  | .vNull, .vBool _ => isFalse (by intro h; cases h)
  | .vNull, .vInt _ => isFalse (by intro h; cases h)
  | .vNull, .vStr _ => isFalse (by intro h; cases h)
  | .vNull, .vList _ => isFalse (by intro h; cases h)
  | .vBool _, .vNull => isFalse (by intro h; cases h)
  | .vBool a, .vBool b =>
      match (inferInstance : Decidable (a = b)) with
      | isTrue h => isTrue (by rw [h])
      | isFalse h => isFalse (by intro hh; cases hh; exact h rfl)
  | .vBool _, .vInt _ => isFalse (by intro h; cases h)
  | .vBool _, .vStr _ => isFalse (by intro h; cases h)
  | .vBool _, .vList _ => isFalse (by intro h; cases h)
  | .vInt _, .vNull => isFalse (by intro h; cases h)
  | .vInt _, .vBool _ => isFalse (by intro h; cases h)
  | .vInt a, .vInt b =>
      match (inferInstance : Decidable (a = b)) with
      | isTrue h => isTrue (by rw [h])
      | isFalse h => isFalse (by intro hh; cases hh; exact h rfl)
  | .vInt _, .vStr _ => isFalse (by intro h; cases h)
  | .vInt _, .vList _ => isFalse (by intro h; cases h)
  | .vStr _, .vNull => isFalse (by intro h; cases h)
  | .vStr _, .vBool _ => isFalse (by intro h; cases h)
  | .vStr _, .vInt _ => isFalse (by intro h; cases h)
  | .vStr a, .vStr b =>
      match (inferInstance : Decidable (a = b)) with
      | isTrue h => isTrue (by rw [h])
      | isFalse h => isFalse (by intro hh; cases hh; exact h rfl)
  | .vStr _, .vList _ => isFalse (by intro h; cases h)
  | .vList _, .vNull => isFalse (by intro h; cases h)
  | .vList _, .vBool _ => isFalse (by intro h; cases h)
  | .vList _, .vInt _ => isFalse (by intro h; cases h)
  | .vList _, .vStr _ => isFalse (by intro h; cases h)
  | .vList a, .vList b =>
      match Value.decEqList a b with
      | isTrue h => isTrue (by rw [h])
      | isFalse h => isFalse (by intro hh; cases hh; exact h rfl)
termination_by structural a => a

def Value.decEqList : (a b : List Value) → Decidable (a = b)
  | [], [] => isTrue rfl
  | [], _ :: _ => isFalse (by intro h; cases h)
  | _ :: _, [] => isFalse (by intro h; cases h)
  | x :: xs, y :: ys =>
      match Value.decEq x y with
      | isFalse h1 => isFalse (by intro hh; cases hh; exact h1 rfl)
      | isTrue h1 =>
          match Value.decEqList xs ys with
          | isTrue h2 => isTrue (by rw [h1, h2])
          | isFalse h2 => isFalse (by intro hh; cases hh; exact h2 rfl)
termination_by structural a => a

end

instance : DecidableEq Value := Value.decEq

/-- One record / ndjson line: an ordered field-name/value association list. -/
abbrev Row := List (String × Value)

/-- Field access on a row; a field that is not present reads as null
(polars fills columns that are absent from a scanned line with null). -/
def getField (r : Row) (name : String) : Value :=
  match r.find? (fun p => p.1 == name) with
  | some p => p.2
  | none => .vNull

/-- Python truthiness of a JSON value, as used by `if v` in the cleaning loop
of merge.py (line 147). -/
def truthy : Value → Bool
  | .vNull => false
  | .vBool b => b
  | .vInt n => decide (n ≠ 0)
  | .vStr s => decide (s ≠ "")
  | .vList items => decide (items ≠ [])

/-- Constructor rank, used only to make the value comparator total across
constructors; well-typed frames only ever compare values of one column
dtype. -/
def Value.rank : Value → Nat
  | .vNull => 0
  | .vBool _ => 1
  | .vInt _ => 2
  | .vStr _ => 3
  | .vList _ => 4

mutual

/-- Total comparator on non-null cell values, mirroring the ordering polars
uses inside a column (booleans false before true, integers and strings
naturally, lists lexicographically).  Null handling is done separately by
`cmpCell`, because the source chooses it per sort call (`nulls_last`). -/
def cmpValue : Value → Value → Ordering
  | .vNull, .vNull => .eq
  | .vBool a, .vBool b => if a = b then .eq else if b then .lt else .gt
  | .vInt a, .vInt b => if a < b then .lt else if b < a then .gt else .eq
  | .vStr a, .vStr b => if a < b then .lt else if b < a then .gt else .eq
  | .vList a, .vList b => cmpValueList a b
  | a, b => if a.rank < b.rank then .lt else .gt
termination_by structural a => a

def cmpValueList : List Value → List Value → Ordering
  | [], [] => .eq
  | [], _ :: _ => .lt
  | _ :: _, [] => .gt
  | x :: xs, y :: ys =>
      match cmpValue x y with
      | .eq => cmpValueList xs ys
      | c => c
termination_by structural a => a

end

/-- Declared column types of a schema (schemas.py); nested structs omitted,
as no claim touches them. -/
inductive VType where
  | tBool : VType
  | tInt : VType
  | tStr : VType
  | tList (elem : VType) : VType

/-- Does a scanned value fit its declared type?  Null always fits (a missing
or null field is accepted in any column). -/
def typeOK : VType → Value → Bool
  | _, .vNull => true
  | .tBool, .vBool _ => true
  | .tInt, .vInt _ => true
  | .tStr, .vStr _ => true
  | .tList t, .vList items => items.all (fun v => typeOK t v)
  | _, _ => false
termination_by structural t => t

/-- A schema: column name to declared type, in declaration order. -/
abbrev Schema := List (String × VType)

/-- Coercion of one raw input line to the schema, as `pl.scan_ndjson` with a
schema does: the resulting row carries exactly the schema's columns in schema
order; unrecognized raw fields are ignored; a line whose value does not fit
its declared type is rejected (`ignore_errors=True` drops it). -/
def normalizeRow (schema : Schema) (raw : Row) : Option Row :=
  if schema.all (fun ft => typeOK ft.2 (getField raw ft.1)) then
    some (schema.map (fun ft => (ft.1, getField raw ft.1)))
  else none

/-- The ingest scan: concatenate the lines of the input paths in order and
coerce each to the schema, dropping rejected lines (merge.py lines 62-69). -/
def ingest (schema : Schema) (paths : List String) (contents : String → List Row) : List Row :=
  (paths.flatMap contents).filterMap (normalizeRow schema)

/-- A configuration slot that, as in the Python source, holds either a single
item or a list of items (`x if isinstance(x, list) else [x]`). -/
inductive OneOrMany (α : Type) where
  | one (a : α) : OneOrMany α
  | many (items : List α) : OneOrMany α

/-- The normalization merge.py applies at lines 44-48, 71-75 and 80-84. -/
def OneOrMany.toList {α : Type} : OneOrMany α → List α
  | .one a => [a]
  | .many items => items

/-- A polars `IntoExpr` (a column name or a column expression such as
`pl.col("bgg_user_name").str.to_lowercase()`) denotes a function from a row
to a cell value. -/
abbrev FieldExpr := Row → Value

/-- The expression denoted by a plain column name. -/
def col (name : String) : FieldExpr := fun r => getField r name

/-- The merge configuration consumed by `merge_files` (config.py, class
MergeConfig).  Output path and existence are handled by the caller-visible
parameters of `mergeFilesRel`. -/
structure MergeConfig where
  schema : Schema
  inPaths : OneOrMany String
  keyCol : OneOrMany FieldExpr
  latestCol : OneOrMany FieldExpr
  latestMin : Option Value := none
  sortFields : Option (List FieldExpr) := none
  sortDescending : Bool := false
  fieldnamesInclude : Option (List String) := none
  fieldnamesExclude : Option (List String) := none

/-- The polars comparison `expr >= value`: null on either side makes the
comparison null, and `filter` drops rows whose predicate is null. -/
def vGE (a b : Value) : Bool :=
  match a, b with
  | .vNull, _ => false
  | _, .vNull => false
  | a, b =>
      match cmpValue a b with
      | .lt => false
      | _ => true

/-- `latest_col[0]` of merge.py line 78: the primary recency expression.
(The Python indexing would raise on an empty list; the configurations the
claims quantify over have at least one recency expression.) -/
def primaryLatest (cfg : MergeConfig) : FieldExpr :=
  match cfg.latestCol.toList with
  | [] => fun _ => .vNull
  | e :: _ => e

/-- The recency-floor predicate of merge.py lines 76-78: with no floor
configured every row passes; with a floor, a row passes when its primary
recency value compares greater-or-equal (hence in particular is non-null). -/
def passesFilter (cfg : MergeConfig) (r : Row) : Bool :=
  match cfg.latestMin with
  | none => true
  | some m => vGE (primaryLatest cfg r) m

/-- The recency filter stage. -/
def filterStage (cfg : MergeConfig) (rows : List Row) : List Row :=
  rows.filter (passesFilter cfg)

/-- Comparison of two cells under a sort direction: `descending` reverses the
value order, `nulls_last` pins nulls to the end of the output (and with
`nulls_last = false`, polars places nulls first). -/
def cmpCell (descending nullsLast : Bool) (a b : Value) : Ordering :=
  match a, b with
  | .vNull, .vNull => .eq
  | .vNull, _ => if nullsLast then .gt else .lt
  | _, .vNull => if nullsLast then .lt else .gt
  | a, b => if descending then cmpValue b a else cmpValue a b

/-- Lexicographic comparison of two rows by a list of sort expressions. -/
def cmpRow (exprs : List FieldExpr) (descending nullsLast : Bool) (a b : Row) : Ordering :=
  match exprs with
  | [] => .eq
  | e :: rest =>
      match cmpCell descending nullsLast (e a) (e b) with
      | .eq => cmpRow rest descending nullsLast a b
      | c => c

/-- Non-strict row order for a sort call. -/
def rowLE (exprs : List FieldExpr) (descending nullsLast : Bool) (a b : Row) : Bool :=
  match cmpRow exprs descending nullsLast a b with
  | .gt => false
  | _ => true

/-- A polars sort without `maintain_order`: the output is some permutation of
the input that is pairwise ordered by the requested comparison; the relative
order of ties is unspecified. -/
def sortedByRel (le : Row → Row → Bool) (input output : List Row) : Prop :=
  output.Perm input ∧ output.Pairwise (fun a b => le a b = true)

/-- The key tuple of a row, i.e. the values of the temporary `__key__i`
columns of merge.py lines 85-92. -/
def keyTuple (keys : List FieldExpr) (r : Row) : List Value :=
  keys.map (fun e => e r)

/-- `unique(subset=keys, keep="first")` on the current frame order: keep each
row whose key tuple has not been seen earlier in the frame. -/
def keepFirstByAux (key : Row → List Value) (seen : List (List Value)) : List Row → List Row
  | [] => []
  | r :: rs =>
      if key r ∈ seen then keepFirstByAux key seen rs
      else r :: keepFirstByAux key (key r :: seen) rs

/-- The rows retained by `unique(subset=keys, keep="first")`, in frame
order. -/
def keepFirstBy (key : Row → List Value) (l : List Row) : List Row :=
  keepFirstByAux key [] l

/-- The dedup stage of merge.py lines 90-95: sort by the recency expressions
descending with nulls last (tie order unspecified), keep the first row per
key tuple, and emit the kept rows in an unspecified order (`unique` without
`maintain_order`). -/
def dedupRel (cfg : MergeConfig) (rows ded : List Row) : Prop :=
  ∃ s1, sortedByRel (rowLE cfg.latestCol.toList true true) rows s1 ∧
    ded.Perm (keepFirstBy (keyTuple cfg.keyCol.toList) s1)

/-- The optional sort stage of merge.py lines 97-106 (`nulls_last` is left at
its polars default, false). -/
def sortStageRel (cfg : MergeConfig) (ded out : List Row) : Prop :=
  match cfg.sortFields with
  | none => out = ded
  | some fs => sortedByRel (rowLE fs cfg.sortDescending false) ded out

/-- The optional projection of merge.py lines 108-113.  `select(include)`
emits exactly the listed columns in the listed order and raises if one is
absent from the frame; `select(pl.exclude(names))` drops the named columns
and keeps the remaining ones in frame order. -/
def projectStage (cfg : MergeConfig) (rows : List Row) : Option (List Row) :=
  match cfg.fieldnamesInclude with
  | some inc =>
      if inc.all (fun n => (cfg.schema.map Prod.fst).contains n) then
        some (rows.map (fun r => inc.map (fun n => (n, getField r n))))
      else none
  | none =>
      match cfg.fieldnamesExclude with
      | some exc => some (rows.map (fun r => r.filter (fun p => !(exc.contains p.1))))
      | none => some rows

/-- Insertion into a name-sorted field list (fields of one record have
pairwise distinct names, so the tie case is immaterial). -/
def insertField (p : String × Value) : Row → Row
  | [] => [p]
  | q :: qs => if q.1 < p.1 then q :: insertField p qs else p :: q :: qs

/-- `json.dump(row, ..., sort_keys=True)`: serialize the fields of a line in
ascending name order. -/
def sortFieldsOfRow (r : Row) : Row :=
  r.foldr insertField []

/-- The per-line cleaning of merge.py lines 144-148: `drop_empty` removes the
fields whose value is falsy, `sort_keys` orders the remaining fields by
name. -/
def cleanRow (dropEmpty sortKeys : Bool) (r : Row) : Row :=
  let r1 := if dropEmpty then r.filter (fun p => truthy p.2) else r
  if sortKeys then sortFieldsOfRow r1 else r1

/-- The write phase of merge.py lines 120-149: with neither cleaning option a
single direct bulk write; otherwise the two-phase write that streams each
line through `cleanRow` (the tempfile round-trip is content-preserving). -/
def cleanStage (dropEmpty sortKeys : Bool) (rows : List Row) : List Row :=
  if !dropEmpty && !sortKeys then rows
  else rows.map (cleanRow dropEmpty sortKeys)

/-- Observable outcome of one `merge_files` call. -/
inductive MergeResult where
  | configError : MergeResult
  | skipped : MergeResult
  | runtimeError : MergeResult
  | written (rows : List Row) : MergeResult
  deriving DecidableEq

/-- Effect of an outcome on the destination file: only a completed run
replaces its content. -/
def resultFS (res : MergeResult) (old : Option (List Row)) : Option (List Row) :=
  match res with
  | .written rows => some rows
  | _ => old

/-- The post-filter candidate row set of a run. -/
def candidateRows (cfg : MergeConfig) (contents : String → List Row) : List Row :=
  filterStage cfg (ingest cfg.schema cfg.inPaths.toList contents)

/-- The number of distinct key-tuple values in a row set. -/
def distinctKeyCount (cfg : MergeConfig) (rows : List Row) : Nat :=
  ((rows.map (keyTuple cfg.keyCol.toList)).toFinset).card

/-- One call of `merge_files` (merge.py lines 19-151), as a relation because
the two polars sorts and `unique` leave tie order unspecified.  The guard
order mirrors the source: the include/exclude conflict check (lines 37-42)
runs first, then the destination-collision check (lines 58-60), then the
pipeline. -/
def mergeFilesRel (cfg : MergeConfig) (overwrite dropEmpty sortKeys : Bool)
    (outExists : Bool) (contents : String → List Row) (res : MergeResult) : Prop :=
  if cfg.fieldnamesInclude.isSome && cfg.fieldnamesExclude.isSome then
    res = .configError
  else if !overwrite && outExists then
    res = .skipped
  else
    ∃ ded out2,
      dedupRel cfg (candidateRows cfg contents) ded ∧
      sortStageRel cfg ded out2 ∧
      match projectStage cfg out2 with
      | none => res = .runtimeError
      | some proj => res = .written (cleanStage dropEmpty sortKeys proj)

/-- The null-blind greater-or-equal on cell values; `vGE` is this comparison
guarded by the null checks.  Used to state the spec's "recency ≥ floor". -/
def valueGE (a b : Value) : Bool :=
  match cmpValue a b with
  | .lt => false
  | _ => true

/-- The claim's enumeration of "empty" field values: null, empty string,
empty list, boolean false, numeric zero. -/
def isEmptyValue (v : Value) : Bool :=
  v == .vNull || v == .vStr "" || v == .vList [] || v == .vBool false || v == .vInt 0

/-- Modelled from the spec's words (section 4.4): a sort that is stable with
respect to input order for records with equal sort keys, to be compared with
the relational sort the code actually performs.  Insertion keeps an incoming
record after the already-placed records it ties with. -/
def specStableInsert (le : Row → Row → Bool) (a : Row) : List Row → List Row
  | [] => [a]
  | b :: bs => if le b a then b :: specStableInsert le a bs else a :: b :: bs

/-- Modelled from the spec's words (section 4.4): stable sort by repeated
stable insertion, processing the input left to right. -/
def specStableSort (le : Row → Row → Bool) (l : List Row) : List Row :=
  l.foldl (fun acc a => specStableInsert le a acc) []

mutual

theorem cmpValue_self : ∀ v : Value, cmpValue v v = .eq
  | .vNull => rfl
  | .vBool b => by simp [cmpValue]
  | .vInt n => by simp [cmpValue]
  | .vStr s => by simp [cmpValue]
  | .vList items => by
      have h := cmpValueList_self items
      simp [cmpValue, h]
termination_by structural v => v

theorem cmpValueList_self : ∀ l : List Value, cmpValueList l l = .eq
  | [] => rfl
  | x :: xs => by
      have h1 := cmpValue_self x
      have h2 := cmpValueList_self xs
      simp [cmpValueList, h1, h2]
termination_by structural l => l

end

theorem cmpCell_self (descending nullsLast : Bool) (v : Value) :
    cmpCell descending nullsLast v v = .eq := by
  cases v <;> simp [cmpCell, cmpValue_self]

theorem cmpRow_self (exprs : List FieldExpr) (descending nullsLast : Bool) (a : Row) :
    cmpRow exprs descending nullsLast a a = .eq := by
  induction exprs with
  | nil => rfl
  | cons e rest ih => simp [cmpRow, cmpCell_self, ih]

theorem rowLE_refl (exprs : List FieldExpr) (descending nullsLast : Bool) (a : Row) :
    rowLE exprs descending nullsLast a a = true := by
  simp [rowLE, cmpRow_self]

theorem vGE_decompose {m : Value} (hm : m ≠ .vNull) (a : Value) :
    vGE a m = true ↔ (a ≠ .vNull ∧ valueGE a m = true) := by
  cases a <;> cases m <;> simp_all [vGE, valueGE]

theorem truthy_eq_not_isEmptyValue (v : Value) : truthy v = !isEmptyValue v := by
  cases v with
  | vNull => rfl
  | vBool b => cases b <;> rfl
  | vInt n => by_cases h : n = 0 <;> simp [truthy, isEmptyValue, h]
  | vStr s => by_cases h : s = "" <;> simp [truthy, isEmptyValue, h]
  | vList items => cases items <;> simp [truthy, isEmptyValue]

theorem perm_toFinset_eq {α : Type} [DecidableEq α] {l1 l2 : List α} (p : l1.Perm l2) :
    l1.toFinset = l2.toFinset := by
  ext x
  simp only [List.mem_toFinset]
  exact p.mem_iff

theorem keepFirstByAux_subset (key : Row → List Value) :
    ∀ (l : List Row) (seen : List (List Value)) (w : Row),
      w ∈ keepFirstByAux key seen l → w ∈ l := by
  intro l
  induction l with
  | nil => intro seen w h; simp [keepFirstByAux] at h
  | cons r rs ih =>
      intro seen w h
      by_cases hs : key r ∈ seen
      · simp only [keepFirstByAux, if_pos hs] at h
        exact List.mem_cons_of_mem r (ih seen w h)
      · simp only [keepFirstByAux, if_neg hs] at h
        rcases List.mem_cons.mp h with h | h
        · exact h ▸ List.mem_cons_self r rs
        · exact List.mem_cons_of_mem r (ih _ w h)

theorem keepFirstByAux_keys (key : Row → List Value) :
    ∀ (l : List Row) (seen : List (List Value)),
      ((keepFirstByAux key seen l).map key).Nodup ∧
        ∀ k ∈ (keepFirstByAux key seen l).map key, k ∉ seen := by
  intro l
  induction l with
  | nil => intro seen; simp [keepFirstByAux]
  | cons r rs ih =>
      intro seen
      by_cases hs : key r ∈ seen
      · simpa only [keepFirstByAux, if_pos hs] using ih seen
      · obtain ⟨ihn, ihs⟩ := ih (key r :: seen)
        simp only [keepFirstByAux, if_neg hs, List.map_cons, List.nodup_cons]
        refine ⟨⟨?_, ihn⟩, ?_⟩
        · intro hmem
          exact (ihs _ hmem) (List.mem_cons_self _ _)
        · intro k hk
          rcases List.mem_cons.mp hk with hk | hk
          · exact hk ▸ hs
          · intro hkseen
            exact (ihs k hk) (List.mem_cons_of_mem _ hkseen)

theorem keepFirstByAux_cover {R : Row → Row → Prop} (key : Row → List Value) :
    ∀ (l : List Row) (seen : List (List Value)), l.Pairwise R →
      ∀ d ∈ l, key d ∉ seen →
        ∃ w ∈ keepFirstByAux key seen l, key w = key d ∧ (w = d ∨ R w d) := by
  intro l
  induction l with
  | nil => intro seen _ d hd; simp at hd
  | cons r rs ih =>
      intro seen hp d hd hns
      rw [List.pairwise_cons] at hp
      obtain ⟨hr, hrs⟩ := hp
      by_cases hs : key r ∈ seen
      · simp only [keepFirstByAux, if_pos hs]
        rcases List.mem_cons.mp hd with hd | hd
        · exact absurd (hd ▸ hns) (by simp [hs])
        · exact ih seen hrs d hd hns
      · simp only [keepFirstByAux, if_neg hs]
        rcases List.mem_cons.mp hd with hd | hd
        · exact ⟨r, List.mem_cons_self _ _, by rw [hd], Or.inl hd.symm⟩
        · by_cases hk : key d = key r
          · exact ⟨r, List.mem_cons_self _ _, hk.symm, Or.inr (hr d hd)⟩
          · obtain ⟨w, hw1, hw2, hw3⟩ :=
              ih (key r :: seen) hrs d hd (by simp [hk, hns])
            exact ⟨w, List.mem_cons_of_mem _ hw1, hw2, hw3⟩

theorem keepFirstByAux_of_nodup (key : Row → List Value) :
    ∀ (l : List Row) (seen : List (List Value)),
      (l.map key).Nodup → (∀ r ∈ l, key r ∉ seen) →
        keepFirstByAux key seen l = l := by
  intro l
  induction l with
  | nil => intro seen _ _; rfl
  | cons r rs ih =>
      intro seen hn hseen
      rw [List.map_cons, List.nodup_cons] at hn
      obtain ⟨hr, hrs⟩ := hn
      have hs : key r ∉ seen := hseen r (List.mem_cons_self _ _)
      simp only [keepFirstByAux, if_neg hs]
      congr 1
      refine ih (key r :: seen) hrs ?_
      intro s hsmem
      simp only [List.mem_cons]
      push_neg
      constructor
      · intro heq
        exact hr (heq ▸ List.mem_map_of_mem key hsmem)
      · exact hseen s (List.mem_cons_of_mem _ hsmem)

theorem insert_sdiff_of_mem_card {α : Type} [DecidableEq α] (a : α) (s t : Finset α)
    (h : a ∈ t) : (insert a s \ t) = s \ t := by
  ext x
  simp only [Finset.mem_sdiff, Finset.mem_insert]
  constructor
  · rintro ⟨h1 | h1, h2⟩
    · exact absurd (h1 ▸ h) h2
    · exact ⟨h1, h2⟩
  · rintro ⟨h1, h2⟩
    exact ⟨Or.inr h1, h2⟩

theorem insert_sdiff_of_not_mem_card {α : Type} [DecidableEq α] (a : α) (s t : Finset α)
    (h : a ∉ t) : (insert a s \ t).card = (s \ insert a t).card + 1 := by
  have h1 : insert a s \ t = insert a (s \ insert a t) := by
    ext x
    simp only [Finset.mem_sdiff, Finset.mem_insert]
    constructor
    · rintro ⟨h1 | h1, h2⟩
      · exact Or.inl h1
      · by_cases hx : x = a
        · exact Or.inl hx
        · exact Or.inr ⟨h1, by simp [hx, h2]⟩
    · rintro (h1 | ⟨h1, h2⟩)
      · exact ⟨Or.inl h1, h1 ▸ h⟩
      · push_neg at h2
        exact ⟨Or.inr h1, h2.2⟩
  rw [h1]
  refine Finset.card_insert_of_not_mem ?_
  simp

theorem keepFirstByAux_length (key : Row → List Value) :
    ∀ (l : List Row) (seen : List (List Value)),
      (keepFirstByAux key seen l).length =
        ((l.map key).toFinset \ seen.toFinset).card := by
  intro l
  induction l with
  | nil => intro seen; simp [keepFirstByAux]
  | cons r rs ih =>
      intro seen
      by_cases hs : key r ∈ seen
      · rw [keepFirstByAux, if_pos hs, ih seen, List.map_cons, List.toFinset_cons,
          insert_sdiff_of_mem_card _ _ _ (by simpa using hs)]
      · rw [keepFirstByAux, if_neg hs, List.length_cons, ih (key r :: seen),
          List.map_cons, List.toFinset_cons, List.toFinset_cons,
          insert_sdiff_of_not_mem_card _ _ _ (by simpa using hs)]

theorem keepFirstBy_length (key : Row → List Value) (l : List Row) :
    (keepFirstBy key l).length = (l.map key).toFinset.card := by
  rw [keepFirstBy, keepFirstByAux_length]
  simp

theorem keepFirstBy_subset (key : Row → List Value) (l : List Row) (w : Row)
    (h : w ∈ keepFirstBy key l) : w ∈ l :=
  keepFirstByAux_subset key l [] w h

theorem keepFirstBy_keys_nodup (key : Row → List Value) (l : List Row) :
    ((keepFirstBy key l).map key).Nodup :=
  (keepFirstByAux_keys key l []).1

theorem keepFirstBy_cover {R : Row → Row → Prop} (key : Row → List Value)
    (l : List Row) (hp : l.Pairwise R) (d : Row) (hd : d ∈ l) :
    ∃ w ∈ keepFirstBy key l, key w = key d ∧ (w = d ∨ R w d) :=
  keepFirstByAux_cover key l [] hp d hd (by simp)

theorem keepFirstBy_of_nodup (key : Row → List Value) (l : List Row)
    (hn : (l.map key).Nodup) : keepFirstBy key l = l :=
  keepFirstByAux_of_nodup key l [] hn (by simp)

theorem mergeFilesRel_written_elim {cfg : MergeConfig} {ov de sk oe : Bool}
    {contents : String → List Row} {out : List Row}
    (h : mergeFilesRel cfg ov de sk oe contents (.written out)) :
    ∃ ded out2 proj,
      dedupRel cfg (candidateRows cfg contents) ded ∧
      sortStageRel cfg ded out2 ∧
      projectStage cfg out2 = some proj ∧
      out = cleanStage de sk proj := by
  unfold mergeFilesRel at h
  by_cases hc1 : (cfg.fieldnamesInclude.isSome && cfg.fieldnamesExclude.isSome) = true
  · rw [if_pos hc1] at h
    exact absurd h (by simp)
  · rw [if_neg hc1] at h
    by_cases hc2 : (!ov && oe) = true
    · rw [if_pos hc2] at h
      exact absurd h (by simp)
    · rw [if_neg hc2] at h
      obtain ⟨ded, out2, h1, h2, h3⟩ := h
      cases heq : projectStage cfg out2 with
      | none =>
          rw [heq] at h3
          exact absurd h3 (by simp)
      | some proj =>
          rw [heq] at h3
          simp only [] at h3
          injection h3 with h4
          exact ⟨ded, out2, proj, h1, h2, heq, h4⟩

theorem cleanStage_length (de sk : Bool) (rows : List Row) :
    (cleanStage de sk rows).length = rows.length := by
  unfold cleanStage
  split
  · rfl
  · simp

theorem projectStage_length {cfg : MergeConfig} {rows proj : List Row}
    (h : projectStage cfg rows = some proj) : proj.length = rows.length := by
  unfold projectStage at h
  split at h
  · split at h
    · injection h with h2
      rw [← h2]
      simp
    · exact absurd h (by simp)
  · split at h
    · injection h with h2
      rw [← h2]
      simp
    · injection h with h2
      rw [← h2]

theorem sortStageRel_perm {cfg : MergeConfig} {ded out : List Row}
    (h : sortStageRel cfg ded out) : out.Perm ded := by
  unfold sortStageRel at h
  split at h
  · exact h ▸ List.Perm.refl _
  · exact h.1

theorem stage_mem_candidate {cfg : MergeConfig} {cand ded out2 : List Row} {r : Row}
    (hd : dedupRel cfg cand ded) (hs : sortStageRel cfg ded out2) (hr : r ∈ out2) :
    r ∈ cand := by
  obtain ⟨s1, ⟨hperm, _⟩, hdperm⟩ := hd
  have h1 : r ∈ ded := (sortStageRel_perm hs).mem_iff.mp hr
  have h2 : r ∈ keepFirstBy (keyTuple cfg.keyCol.toList) s1 := hdperm.mem_iff.mp h1
  exact hperm.mem_iff.mp (keepFirstBy_subset _ _ _ h2)

theorem getField_cons (p : String × Value) (r : Row) (n : String) :
    getField (p :: r) n = if p.1 == n then p.2 else getField r n := by
  unfold getField
  simp only [List.find?]
  cases hpb : (p.1 == n) <;> simp [hpb]

theorem getField_map_schema (schema : Schema) (g : String → Value)
    (hnn : (schema.map Prod.fst).Nodup) (n : String) (hn : n ∈ schema.map Prod.fst) :
    getField (schema.map (fun ft => (ft.1, g ft.1))) n = g n := by
  induction schema with
  | nil => simp at hn
  | cons ft rest ih =>
      simp only [List.map_cons] at hn hnn ⊢
      rw [List.nodup_cons] at hnn
      rw [getField_cons]
      by_cases he : ft.1 = n
      · simp [he]
      · rw [if_neg (by simp [he])]
        rcases List.mem_cons.mp hn with h | h
        · exact absurd h.symm he
        · exact ih hnn.2 h

theorem normalizeRow_fixed {schema : Schema} (hnn : (schema.map Prod.fst).Nodup)
    {raw r : Row} (h : normalizeRow schema raw = some r) :
    normalizeRow schema r = some r := by
  unfold normalizeRow at h
  split at h
  case isTrue hall =>
    injection h with h2
    have hget : ∀ ft ∈ schema, getField r ft.1 = getField raw ft.1 := by
      intro ft hft
      rw [← h2]
      exact getField_map_schema schema (fun name => getField raw name) hnn ft.1
        (List.mem_map_of_mem _ hft)
    unfold normalizeRow
    rw [if_pos ?_]
    · congr 1
      conv_rhs => rw [← h2]
      exact List.map_congr_left (fun ft hft => by rw [hget ft hft])
    · rw [List.all_eq_true] at hall ⊢
      intro ft hft
      rw [hget ft hft]
      exact hall ft hft
  case isFalse => exact absurd h (by simp)

theorem ingest_shape {schema : Schema} {paths : List String}
    {contents : String → List Row} {r : Row}
    (h : r ∈ ingest schema paths contents) : r.map Prod.fst = schema.map Prod.fst := by
  unfold ingest at h
  obtain ⟨raw, _, hnorm⟩ := List.mem_filterMap.mp h
  unfold normalizeRow at hnorm
  split at hnorm
  · injection hnorm with h2
    rw [← h2, List.map_map]
    rfl
  · exact absurd hnorm (by simp)

theorem ingest_fixed {schema : Schema} {paths : List String}
    {contents : String → List Row} {r : Row} (hnn : (schema.map Prod.fst).Nodup)
    (h : r ∈ ingest schema paths contents) : normalizeRow schema r = some r := by
  unfold ingest at h
  obtain ⟨raw, _, hnorm⟩ := List.mem_filterMap.mp h
  exact normalizeRow_fixed hnn hnorm

theorem filterMap_fixed {f : Row → Option Row} :
    ∀ l : List Row, (∀ r ∈ l, f r = some r) → l.filterMap f = l := by
  intro l
  induction l with
  | nil => intro _; rfl
  | cons r rs ih =>
      intro h
      rw [List.filterMap_cons, h r (List.mem_cons_self _ _),
        ih (fun s hs => h s (List.mem_cons_of_mem _ hs))]

theorem distinctKeyCount_perm (cfg : MergeConfig) {la lb : List Row} (p : la.Perm lb) :
    distinctKeyCount cfg la = distinctKeyCount cfg lb := by
  unfold distinctKeyCount
  rw [perm_toFinset_eq (p.map _)]

theorem mergeFilesRel_written_length {cfg : MergeConfig} {ov de sk oe : Bool}
    {contents : String → List Row} {out : List Row}
    (h : mergeFilesRel cfg ov de sk oe contents (.written out)) :
    out.length = distinctKeyCount cfg (candidateRows cfg contents) := by
  obtain ⟨ded, out2, proj, hd, hs, hp, hout⟩ := mergeFilesRel_written_elim h
  obtain ⟨s1, ⟨hs1perm, _⟩, hdperm⟩ := hd
  rw [hout, cleanStage_length, projectStage_length hp,
    (sortStageRel_perm hs).length_eq, hdperm.length_eq, keepFirstBy_length]
  unfold distinctKeyCount
  rw [perm_toFinset_eq (hs1perm.map _)]

/-- C1: for every merge run over a filtered input candidate set that completes
with written output, the number of output records equals the number of
distinct key values in the post-filter candidate set, and there is a set of
winner rows (the pre-projection forms of the output records, one per output
record, with pairwise distinct keys, all drawn from the candidate set) such
that every filtered candidate record is dominated by the winner of its key
under the recency order the code sorts by (`rowLE` over the recency
expressions, descending, nulls last) — in particular every discarded record
compares no greater than the retained record of its key. -/
theorem claim1_one_record_per_key_latest_wins
    {cfg : MergeConfig} {ov de sk oe : Bool} {contents : String → List Row}
    {out : List Row}
    (hrun : mergeFilesRel cfg ov de sk oe contents (.written out)) :
    out.length = distinctKeyCount cfg (candidateRows cfg contents) ∧
    ∃ winners : List Row,
      winners.length = out.length ∧
      (winners.map (keyTuple cfg.keyCol.toList)).Nodup ∧
      (∀ w ∈ winners, w ∈ candidateRows cfg contents) ∧
      (∀ d ∈ candidateRows cfg contents, ∃ w ∈ winners,
        keyTuple cfg.keyCol.toList w = keyTuple cfg.keyCol.toList d ∧
        rowLE cfg.latestCol.toList true true w d = true) := by
  refine ⟨mergeFilesRel_written_length hrun, ?_⟩
  obtain ⟨ded, out2, proj, hd, hs, hp, hout⟩ := mergeFilesRel_written_elim hrun
  obtain ⟨s1, ⟨hs1perm, hs1sorted⟩, hdperm⟩ := hd
  refine ⟨keepFirstBy (keyTuple cfg.keyCol.toList) s1, ?_,
    keepFirstBy_keys_nodup _ _, ?_, ?_⟩
  · rw [hout, cleanStage_length, projectStage_length hp,
      (sortStageRel_perm hs).length_eq, hdperm.length_eq]
  · intro w hw
    exact hs1perm.mem_iff.mp (keepFirstBy_subset _ _ _ hw)
  · intro d hdmem
    obtain ⟨w, hw1, hw2, hw3⟩ := keepFirstBy_cover (keyTuple cfg.keyCol.toList) s1
      hs1sorted d (hs1perm.mem_iff.mpr hdmem)
    refine ⟨w, hw1, hw2, ?_⟩
    rcases hw3 with h | h
    · rw [h]
      exact rowLE_refl _ _ _ _
    · exact h

/-- Concrete configuration for witness runs: integer id key, integer ts
recency, no optional stage configured. -/
def cfgBase : MergeConfig :=
  { schema := [("id", .tInt), ("ts", .tInt)]
    inPaths := .one "feed"
    keyCol := .one (col "id")
    latestCol := .one (col "ts") }

def rowT3 : Row := [("id", .vInt 1), ("ts", .vInt 3)]

def rowT5 : Row := [("id", .vInt 1), ("ts", .vInt 5)]

def feedBase : String → List Row := fun _ => [rowT3, rowT5]

/-- Witness for C1: a concrete two-record run with a duplicate key in which
the later record wins. -/
theorem claim1_one_record_per_key_latest_wins_witness :
    [rowT5].length = distinctKeyCount cfgBase (candidateRows cfgBase feedBase) ∧
    ∃ winners : List Row,
      winners.length = [rowT5].length ∧
      (winners.map (keyTuple cfgBase.keyCol.toList)).Nodup ∧
      (∀ w ∈ winners, w ∈ candidateRows cfgBase feedBase) ∧
      (∀ d ∈ candidateRows cfgBase feedBase, ∃ w ∈ winners,
        keyTuple cfgBase.keyCol.toList w = keyTuple cfgBase.keyCol.toList d ∧
        rowLE cfgBase.latestCol.toList true true w d = true) :=
  @claim1_one_record_per_key_latest_wins cfgBase true false false false feedBase [rowT5]
    ⟨[rowT5], [rowT5], ⟨[rowT5, rowT3], ⟨by decide, by decide⟩, by decide⟩, rfl, rfl⟩

/-- C3: configuring both an include-list and an exclude-list makes
`merge_files` fail with the configuration error, uniformly in the input
contents and in the state of the destination (so before any I/O), and the
destination file content is untouched. -/
theorem claim3_conflicting_projection_is_config_error
    {cfg : MergeConfig} (hinc : cfg.fieldnamesInclude.isSome = true)
    (hexc : cfg.fieldnamesExclude.isSome = true)
    (ov de sk oe : Bool) (contents : String → List Row) (res : MergeResult)
    (old : Option (List Row)) :
    (mergeFilesRel cfg ov de sk oe contents res ↔ res = .configError) ∧
    (mergeFilesRel cfg ov de sk oe contents res → resultFS res old = old) := by
  have hcond : (cfg.fieldnamesInclude.isSome && cfg.fieldnamesExclude.isSome) = true := by
    rw [hinc, hexc]
    rfl
  constructor
  · unfold mergeFilesRel
    rw [if_pos hcond]
  · intro h
    unfold mergeFilesRel at h
    rw [if_pos hcond] at h
    rw [h]
    rfl

def cfgBothLists : MergeConfig :=
  { schema := [("id", .tInt), ("ts", .tInt)]
    inPaths := .one "feed"
    keyCol := .one (col "id")
    latestCol := .one (col "ts")
    fieldnamesInclude := some ["id"]
    fieldnamesExclude := some ["ts"] }

/-- Witness for C3 at a concrete conflicting configuration. -/
theorem claim3_conflicting_projection_is_config_error_witness :
    (mergeFilesRel cfgBothLists true false false false (fun _ => [rowT3]) .configError ↔
      MergeResult.configError = .configError) ∧
    (mergeFilesRel cfgBothLists true false false false (fun _ => [rowT3]) .configError →
      resultFS .configError (some [rowT5]) = some [rowT5]) :=
  @claim3_conflicting_projection_is_config_error cfgBothLists rfl rfl true false false false
    (fun _ => [rowT3]) .configError (some [rowT5])

/-- C10: a scalar input path, key column or recency column behaves exactly
like its one-element list form — the source normalizes
`x if isinstance(x, list) else [x]` before use, so the two configurations
induce the same merge relation. -/
theorem claim10_scalar_equals_singleton_list
    (cfg : MergeConfig) (p : String) (e k : FieldExpr)
    (ov de sk oe : Bool) (contents : String → List Row) (res : MergeResult) :
    (mergeFilesRel { cfg with inPaths := .one p } ov de sk oe contents res ↔
      mergeFilesRel { cfg with inPaths := .many [p] } ov de sk oe contents res) ∧
    (mergeFilesRel { cfg with keyCol := .one e } ov de sk oe contents res ↔
      mergeFilesRel { cfg with keyCol := .many [e] } ov de sk oe contents res) ∧
    (mergeFilesRel { cfg with latestCol := .one k } ov de sk oe contents res ↔
      mergeFilesRel { cfg with latestCol := .many [k] } ov de sk oe contents res) :=
  ⟨Iff.rfl, Iff.rfl, Iff.rfl⟩

theorem projectStage_none_none {cfg : MergeConfig} {out2 proj : List Row}
    (hinc : cfg.fieldnamesInclude = none) (hexc : cfg.fieldnamesExclude = none)
    (hp : projectStage cfg out2 = some proj) : proj = out2 := by
  simp only [projectStage, hinc, hexc] at hp
  injection hp with h
  exact h.symm

theorem insertField_perm (p : String × Value) :
    ∀ l : Row, (insertField p l).Perm (p :: l) := by
  intro l
  induction l with
  | nil => exact List.Perm.refl _
  | cons q qs ih =>
      unfold insertField
      split
      · exact (List.Perm.cons q ih).trans (List.Perm.swap p q qs)
      · exact List.Perm.refl _

theorem sortFieldsOfRow_perm : ∀ r : Row, (sortFieldsOfRow r).Perm r := by
  intro r
  induction r with
  | nil => exact List.Perm.refl _
  | cons p rest ih =>
      exact (insertField_perm p (sortFieldsOfRow rest)).trans (List.Perm.cons p ih)

theorem mem_cleanRow_dropEmpty (sk : Bool) (row : Row) (p : String × Value) :
    p ∈ cleanRow true sk row ↔ (p ∈ row ∧ truthy p.2 = true) := by
  cases sk
  · show p ∈ List.filter (fun q => truthy q.2) row ↔ _
    exact List.mem_filter
  · show p ∈ sortFieldsOfRow (List.filter (fun q => truthy q.2) row) ↔ _
    rw [(sortFieldsOfRow_perm _).mem_iff]
    exact List.mem_filter

/-- C2: with a (non-null) recency floor configured, a record passes the
recency filter iff its primary recency value exists and is ≥ the floor
(`valueGE` is the null-blind comparison); consequently, in a completed run
without field projection or cleaning, every output record has a non-null
primary recency value ≥ the floor; and with no floor configured every
ingested record passes the filter. -/
theorem claim2_recency_floor_filter
    {cfg : MergeConfig} {m : Value} (hm : cfg.latestMin = some m)
    (hmn : m ≠ .vNull) :
    (∀ r : Row, passesFilter cfg r = true ↔
      (primaryLatest cfg r ≠ .vNull ∧ valueGE (primaryLatest cfg r) m = true)) ∧
    (∀ (ov oe : Bool) (contents : String → List Row) (out : List Row),
      cfg.fieldnamesInclude = none → cfg.fieldnamesExclude = none →
      mergeFilesRel cfg ov false false oe contents (.written out) →
      ∀ r ∈ out, primaryLatest cfg r ≠ .vNull ∧ valueGE (primaryLatest cfg r) m = true) ∧
    (∀ (cfg0 : MergeConfig) (r : Row), cfg0.latestMin = none →
      passesFilter cfg0 r = true) := by
  refine ⟨?_, ?_, ?_⟩
  · intro r
    unfold passesFilter
    rw [hm]
    exact vGE_decompose hmn _
  · intro ov oe contents out hinc hexc hrun r hr
    obtain ⟨ded, out2, proj, hd, hs, hp, hout⟩ := mergeFilesRel_written_elim hrun
    have hproj : proj = out2 := projectStage_none_none hinc hexc hp
    rw [hout] at hr
    rw [show cleanStage false false proj = proj from rfl, hproj] at hr
    have hcand : r ∈ candidateRows cfg contents := stage_mem_candidate hd hs hr
    have hpass : passesFilter cfg r = true :=
      (List.mem_filter.mp (by simpa [candidateRows, filterStage] using hcand)).2
    unfold passesFilter at hpass
    rw [hm] at hpass
    exact (vGE_decompose hmn _).mp hpass
  · intro cfg0 r h0
    unfold passesFilter
    rw [h0]

def cfgFloor : MergeConfig :=
  { schema := [("id", .tInt), ("ts", .tInt)]
    inPaths := .one "feed"
    keyCol := .one (col "id")
    latestCol := .one (col "ts")
    latestMin := some (.vInt 4) }

/-- Witness for C2: under a concrete floor of 4, the record with recency 5
passes the filter. -/
theorem claim2_recency_floor_filter_witness : passesFilter cfgFloor rowT5 = true :=
  ((@claim2_recency_floor_filter cfgFloor (.vInt 4) rfl (by decide)).1 rowT5).mpr
    (by decide)

/-- C5: in a completed run with drop-empty enabled, no output record contains
a field whose value is empty in the claimed sense (null, empty string, empty
list, boolean false or numeric zero), and per record the cleaning keeps
exactly the fields whose value is not empty. -/
theorem claim5_drop_empty_removes_empty_fields
    {cfg : MergeConfig} {ov sk oe : Bool} {contents : String → List Row}
    {out : List Row}
    (hrun : mergeFilesRel cfg ov true sk oe contents (.written out)) :
    (∀ r ∈ out, ∀ p : String × Value, p ∈ r → isEmptyValue p.2 = false) ∧
    (∀ (row : Row) (p : String × Value),
      p ∈ cleanRow true sk row ↔ (p ∈ row ∧ isEmptyValue p.2 = false)) := by
  have hmem : ∀ (row : Row) (p : String × Value),
      p ∈ cleanRow true sk row ↔ (p ∈ row ∧ isEmptyValue p.2 = false) := by
    intro row p
    rw [mem_cleanRow_dropEmpty, truthy_eq_not_isEmptyValue]
    simp
  refine ⟨?_, hmem⟩
  intro r hr p hpr
  obtain ⟨ded, out2, proj, hd, hs, hp, hout⟩ := mergeFilesRel_written_elim hrun
  rw [hout] at hr
  rw [show cleanStage true sk proj = proj.map (cleanRow true sk) from rfl] at hr
  obtain ⟨row0, _, hrow0⟩ := List.mem_map.mp hr
  rw [← hrow0] at hpr
  exact ((hmem row0 p).mp hpr).2

def cfgClean : MergeConfig :=
  { schema := [("id", .tInt), ("ts", .tInt), ("name", .tStr)]
    inPaths := .one "feed"
    keyCol := .one (col "id")
    latestCol := .one (col "ts") }

def rowEmptyName : Row := [("id", .vInt 1), ("ts", .vInt 5), ("name", .vStr "")]

def rowCleaned : Row := [("id", .vInt 1), ("ts", .vInt 5)]

/-- Witness for C5: a concrete run with drop-empty enabled on a record whose
name field is the empty string. -/
theorem claim5_drop_empty_removes_empty_fields_witness :
    (∀ r ∈ [rowCleaned], ∀ p : String × Value, p ∈ r → isEmptyValue p.2 = false) ∧
    (∀ (row : Row) (p : String × Value),
      p ∈ cleanRow true false row ↔ (p ∈ row ∧ isEmptyValue p.2 = false)) :=
  @claim5_drop_empty_removes_empty_fields cfgClean true false false
    (fun _ => [rowEmptyName]) [rowCleaned]
    ⟨[rowEmptyName], [rowEmptyName],
      ⟨[rowEmptyName], ⟨by decide, by decide⟩, by decide⟩, rfl, rfl⟩

/-- C4 counterexample: the claim fails as stated, because the include/exclude
conflict check of merge.py (lines 37-42) runs before the destination-collision
check (lines 58-60).  At a configuration with both lists set, a run whose
destination exists and whose overwrite flag is off raises the configuration
error and is not skipped. -/
theorem claim4_counterexample_config_error_precedes_skip :
    mergeFilesRel cfgBothLists false false false true (fun _ => [rowT3]) .configError ∧
    ¬ mergeFilesRel cfgBothLists false false false true (fun _ => [rowT3]) .skipped := by
  constructor
  · exact rfl
  · intro h
    exact MergeResult.noConfusion h

/-- C4 amended: provided the configuration is valid (include-list and
exclude-list not both set), a merge run whose destination exists without
overwrite permission is skipped — uniformly in the input contents, so no
input is consumed — and a skipped run leaves the destination file
unchanged. -/
theorem claim4_amended_skip_when_destination_exists
    {cfg : MergeConfig}
    (hvalid : (cfg.fieldnamesInclude.isSome && cfg.fieldnamesExclude.isSome) = false)
    (de sk : Bool) (contents : String → List Row) (res : MergeResult)
    (old : Option (List Row)) :
    (mergeFilesRel cfg false de sk true contents res ↔ res = .skipped) ∧
    resultFS .skipped old = old := by
  constructor
  · unfold mergeFilesRel
    rw [if_neg (by simp [hvalid]), if_pos (show (!false && true) = true from rfl)]
  · rfl

/-- Witness for the amended C4 at a concrete valid configuration. -/
theorem claim4_amended_skip_when_destination_exists_witness :
    (mergeFilesRel cfgBase false false false true feedBase .skipped ↔
      MergeResult.skipped = .skipped) ∧
    resultFS .skipped (some [rowT3]) = some [rowT3] :=
  @claim4_amended_skip_when_destination_exists cfgBase rfl false false feedBase .skipped
    (some [rowT3])

def cfgSortStage : MergeConfig :=
  { schema := [("id", .tInt), ("s", .tInt)]
    inPaths := .one "feed"
    keyCol := .one (col "id")
    latestCol := .one (col "id")
    sortFields := some [col "s"] }

def rowEq1 : Row := [("id", .vInt 1), ("s", .vInt 7)]

def rowEq2 : Row := [("id", .vInt 2), ("s", .vInt 7)]

/-- C6 counterexample: the sort stage is not stable with respect to input
order.  The code sorts without `maintain_order`, so on two records with equal
sort keys the stage admits the reversed order as an output, which differs
from the order the (spec-modelled) stable sort produces. -/
theorem claim6_counterexample_sort_not_stable :
    sortStageRel cfgSortStage [rowEq1, rowEq2] [rowEq2, rowEq1] ∧
    rowLE [col "s"] cfgSortStage.sortDescending false rowEq1 rowEq2 = true ∧
    rowLE [col "s"] cfgSortStage.sortDescending false rowEq2 rowEq1 = true ∧
    specStableSort (rowLE [col "s"] cfgSortStage.sortDescending false) [rowEq1, rowEq2] =
      [rowEq1, rowEq2] ∧
    ([rowEq2, rowEq1] : List Row) ≠ [rowEq1, rowEq2] :=
  ⟨⟨by decide, by decide⟩, by decide, by decide, by decide, by decide⟩

/-- C6 amended: in a completed run without projection or cleaning and with
sort fields configured, the output is ordered by the configured fields and
direction, and it is a permutation of the winner set that deduplication fixed
before the sort ran — so the sort stage never influences which record wins a
key; the relative order of records with equal sort keys is however
unspecified. -/
theorem claim6_amended_sort_orders_after_dedup
    {cfg : MergeConfig} {fs : List FieldExpr} {ov oe : Bool}
    {contents : String → List Row} {out : List Row}
    (hfs : cfg.sortFields = some fs)
    (hinc : cfg.fieldnamesInclude = none) (hexc : cfg.fieldnamesExclude = none)
    (hrun : mergeFilesRel cfg ov false false oe contents (.written out)) :
    out.Pairwise (fun a b => rowLE fs cfg.sortDescending false a b = true) ∧
    ∃ s1, sortedByRel (rowLE cfg.latestCol.toList true true)
        (candidateRows cfg contents) s1 ∧
      out.Perm (keepFirstBy (keyTuple cfg.keyCol.toList) s1) := by
  obtain ⟨ded, out2, proj, hd, hs, hp, hout⟩ := mergeFilesRel_written_elim hrun
  have hproj : proj = out2 := projectStage_none_none hinc hexc hp
  have hout2 : out = out2 := by
    rw [hout, hproj]
    rfl
  have hs2 : sortedByRel (rowLE fs cfg.sortDescending false) ded out2 := by
    unfold sortStageRel at hs
    simp only [hfs] at hs
    exact hs
  obtain ⟨s1, hsort1, hdperm⟩ := hd
  constructor
  · rw [hout2]
    exact hs2.2
  · refine ⟨s1, hsort1, ?_⟩
    rw [hout2]
    exact hs2.1.trans hdperm

def cfgSorted : MergeConfig :=
  { schema := [("id", .tInt), ("ts", .tInt)]
    inPaths := .one "feed"
    keyCol := .one (col "id")
    latestCol := .one (col "ts")
    sortFields := some [col "id"] }

def rowId1 : Row := [("id", .vInt 1), ("ts", .vInt 3)]

def rowId2 : Row := [("id", .vInt 2), ("ts", .vInt 4)]

def feedIds : String → List Row := fun _ => [rowId1, rowId2]

/-- Witness for the amended C6: a concrete two-record run sorted ascending by
id after deduplication by recency. -/
theorem claim6_amended_sort_orders_after_dedup_witness :
    ([rowId1, rowId2] : List Row).Pairwise
      (fun a b => rowLE [col "id"] cfgSorted.sortDescending false a b = true) ∧
    ∃ s1, sortedByRel (rowLE cfgSorted.latestCol.toList true true)
        (candidateRows cfgSorted feedIds) s1 ∧
      ([rowId1, rowId2] : List Row).Perm (keepFirstBy (keyTuple cfgSorted.keyCol.toList) s1) :=
  @claim6_amended_sort_orders_after_dedup cfgSorted [col "id"] true false feedIds
    [rowId1, rowId2] rfl rfl rfl
    ⟨[rowId2, rowId1], [rowId1, rowId2],
      ⟨[rowId2, rowId1], ⟨by decide, by decide⟩, by decide⟩,
      ⟨by decide, by decide⟩, rfl⟩

def cfgTie : MergeConfig :=
  { schema := [("id", .tInt), ("ts", .tInt), ("name", .tStr)]
    inPaths := .one "feed"
    keyCol := .one (col "id")
    latestCol := .one (col "ts") }

def rowTieA : Row := [("id", .vInt 1), ("ts", .vInt 5), ("name", .vStr "A")]

def rowTieB : Row := [("id", .vInt 1), ("ts", .vInt 5), ("name", .vStr "B")]

def feedTie : String → List Row := fun _ => [rowTieA, rowTieB]

/-- C7 counterexample: on an input with two records sharing key and recency,
the merge relation admits two different outputs — the recency sort is
performed without `maintain_order`, so either tied record may come first and
win `unique(keep="first")`.  Repeated runs are therefore not guaranteed to
choose the same record. -/
theorem claim7_counterexample_tie_break_not_deterministic :
    mergeFilesRel cfgTie false false false false feedTie (.written [rowTieA]) ∧
    mergeFilesRel cfgTie false false false false feedTie (.written [rowTieB]) ∧
    ([rowTieA] : List Row) ≠ [rowTieB] :=
  ⟨⟨[rowTieA], [rowTieA], ⟨[rowTieA, rowTieB], ⟨by decide, by decide⟩, by decide⟩, rfl, rfl⟩,
   ⟨[rowTieB], [rowTieB], ⟨[rowTieB, rowTieA], ⟨by decide, by decide⟩, by decide⟩, rfl, rfl⟩,
   by decide⟩

/-- C7 amended: every completed run retains exactly one record per distinct
key of the filtered candidate set, each retained record being one of the
candidate records; but which of several records sharing key and recency is
retained is not fixed across runs. -/
theorem claim7_amended_each_run_one_winner_per_key
    {cfg : MergeConfig} {ov de sk oe : Bool} {contents : String → List Row}
    {out : List Row}
    (hrun : mergeFilesRel cfg ov de sk oe contents (.written out)) :
    ∃ winners : List Row,
      out.length = winners.length ∧
      (winners.map (keyTuple cfg.keyCol.toList)).Nodup ∧
      ∀ w ∈ winners, w ∈ candidateRows cfg contents := by
  obtain ⟨ded, out2, proj, hd, hs, hp, hout⟩ := mergeFilesRel_written_elim hrun
  obtain ⟨s1, ⟨hs1perm, hs1sorted⟩, hdperm⟩ := hd
  refine ⟨keepFirstBy (keyTuple cfg.keyCol.toList) s1, ?_,
    keepFirstBy_keys_nodup _ _, ?_⟩
  · rw [hout, cleanStage_length, projectStage_length hp,
      (sortStageRel_perm hs).length_eq, hdperm.length_eq]
  · intro w hw
    exact hs1perm.mem_iff.mp (keepFirstBy_subset _ _ _ hw)

/-- Witness for the amended C7 at a concrete tied run. -/
theorem claim7_amended_each_run_one_winner_per_key_witness :
    ∃ winners : List Row,
      ([rowTieA] : List Row).length = winners.length ∧
      (winners.map (keyTuple cfgTie.keyCol.toList)).Nodup ∧
      ∀ w ∈ winners, w ∈ candidateRows cfgTie feedTie :=
  @claim7_amended_each_run_one_winner_per_key cfgTie false false false false feedTie
    [rowTieA]
    ⟨[rowTieA], [rowTieA], ⟨[rowTieA, rowTieB], ⟨by decide, by decide⟩, by decide⟩, rfl, rfl⟩

theorem map_fst_filter_names (exc : List String) :
    ∀ r : Row, (r.filter (fun q => !(exc.contains q.1))).map Prod.fst =
      (r.map Prod.fst).filter (fun n => !(exc.contains n)) := by
  intro r
  induction r with
  | nil => rfl
  | cons q qs ih =>
      rw [List.filter_cons, List.map_cons, List.filter_cons]
      cases hb : exc.contains q.1
      · rw [if_pos (show (!false) = true from rfl), if_pos (show (!false) = true from rfl),
          List.map_cons, ih]
      · rw [if_neg (show ¬(!true) = true from by simp),
          if_neg (show ¬(!true) = true from by simp), ih]

def cfgIncOrder : MergeConfig :=
  { schema := [("x", .tInt), ("y", .tInt)]
    inPaths := .one "feed"
    keyCol := .one (col "x")
    latestCol := .one (col "x")
    fieldnamesInclude := some ["y", "x"] }

def rowXY : Row := [("x", .vInt 1), ("y", .vInt 2)]

def rowYX : Row := [("y", .vInt 2), ("x", .vInt 1)]

/-- C9 counterexample: with an include-list whose order differs from the
schema's declaration order, `select(include)` emits the columns in
include-list order, so the retained field order does not follow the schema's
declaration order. -/
theorem claim9_counterexample_include_order_not_schema_order :
    mergeFilesRel cfgIncOrder true false false false (fun _ => [rowXY]) (.written [rowYX]) ∧
    rowYX.map Prod.fst ≠ cfgIncOrder.schema.map Prod.fst :=
  ⟨⟨[rowXY], [rowXY], ⟨[rowXY], ⟨by decide, by decide⟩, by decide⟩, rfl, rfl⟩, by decide⟩

/-- C9 amended: in a completed run without cleaning, an include-list
projection retains exactly the listed fields in include-list order (values
read from a candidate record), and an exclude-list projection drops exactly
the listed fields, the remaining ones following the schema's declaration
order. -/
theorem claim9_amended_projection_contents_and_order
    {cfg : MergeConfig} {ov oe : Bool} {contents : String → List Row} {out : List Row}
    (hrun : mergeFilesRel cfg ov false false oe contents (.written out)) :
    (∀ inc, cfg.fieldnamesInclude = some inc →
      ∀ r ∈ out, r.map Prod.fst = inc ∧
        ∃ pre ∈ candidateRows cfg contents, r = inc.map (fun n => (n, getField pre n))) ∧
    (∀ exc, cfg.fieldnamesInclude = none → cfg.fieldnamesExclude = some exc →
      ∀ r ∈ out, r.map Prod.fst = (cfg.schema.map Prod.fst).filter (fun n => !(exc.contains n)) ∧
        ∃ pre ∈ candidateRows cfg contents, r = pre.filter (fun q => !(exc.contains q.1))) := by
  obtain ⟨ded, o2, proj, hd, hs, hp, hout⟩ := mergeFilesRel_written_elim hrun
  have hout' : out = proj := by
    rw [hout]
    rfl
  constructor
  · intro inc hinc r hr
    rw [hout'] at hr
    simp only [projectStage, hinc] at hp
    split at hp
    · injection hp with hp2
      rw [← hp2] at hr
      obtain ⟨pre, hpre, hprer⟩ := List.mem_map.mp hr
      constructor
      · rw [← hprer, List.map_map]
        exact List.map_id inc
      · exact ⟨pre, stage_mem_candidate hd hs hpre, hprer.symm⟩
    · exact absurd hp (by simp)
  · intro exc hinc hexc r hr
    rw [hout'] at hr
    simp only [projectStage, hinc, hexc] at hp
    injection hp with hp2
    rw [← hp2] at hr
    obtain ⟨pre, hpre, hprer⟩ := List.mem_map.mp hr
    have hcand := stage_mem_candidate hd hs hpre
    constructor
    · rw [← hprer, map_fst_filter_names]
      have hshape : pre.map Prod.fst = cfg.schema.map Prod.fst := by
        have hing : pre ∈ ingest cfg.schema cfg.inPaths.toList contents :=
          (List.mem_filter.mp (by simpa [candidateRows, filterStage] using hcand)).1
        exact ingest_shape hing
      rw [hshape]
    · exact ⟨pre, hcand, hprer.symm⟩

def cfgIncX : MergeConfig :=
  { schema := [("x", .tInt), ("y", .tInt)]
    inPaths := .one "feed"
    keyCol := .one (col "x")
    latestCol := .one (col "x")
    fieldnamesInclude := some ["x"] }

/-- Witness for the amended C9 at a concrete include-list run. -/
theorem claim9_amended_projection_contents_and_order_witness :
    ([("x", Value.vInt 1)] : Row).map Prod.fst = ["x"] ∧
    ∃ pre ∈ candidateRows cfgIncX (fun _ => [rowXY]),
      ([("x", Value.vInt 1)] : Row) = ["x"].map (fun n => (n, getField pre n)) :=
  (@claim9_amended_projection_contents_and_order cfgIncX true false (fun _ => [rowXY])
    [[("x", .vInt 1)]]
    ⟨[rowXY], [rowXY], ⟨[rowXY], ⟨by decide, by decide⟩, by decide⟩, rfl, rfl⟩).1
    ["x"] rfl [("x", .vInt 1)] (by decide)

def cfgExclKey : MergeConfig :=
  { schema := [("id", .tInt), ("ts", .tInt)]
    inPaths := .one "feed"
    keyCol := .one (col "id")
    latestCol := .one (col "ts")
    fieldnamesExclude := some ["id"] }

def rowK1 : Row := [("id", .vInt 1), ("ts", .vInt 1)]

def rowK2 : Row := [("id", .vInt 2), ("ts", .vInt 2)]

def outExcl : List Row := [[("ts", .vInt 2)], [("ts", .vInt 1)]]

def rowN2 : Row := [("id", .vNull), ("ts", .vInt 2)]

def rowN1 : Row := [("id", .vNull), ("ts", .vInt 1)]

/-- C8 counterexample: when the projection drops a key field, feeding the
output back in is not idempotent.  A first run over two records with distinct
keys writes two records; rereading them yields null keys for both, so a
second run collapses them into a single record, not a set identical to the
first output. -/
theorem claim8_counterexample_reinput_collapses :
    mergeFilesRel cfgExclKey true false false false (fun _ => [rowK1, rowK2]) (.written outExcl) ∧
    mergeFilesRel cfgExclKey true false false false (fun _ => outExcl)
      (.written [[("ts", Value.vInt 2)]]) ∧
    ¬ ([[("ts", Value.vInt 2)]] : List Row).Perm outExcl :=
  ⟨⟨[rowK2, rowK1], [rowK2, rowK1],
    ⟨[rowK2, rowK1], ⟨by decide, by decide⟩, by decide⟩, rfl, rfl⟩,
   ⟨[rowN2], [rowN2], ⟨[rowN2, rowN1], ⟨by decide, by decide⟩, by decide⟩, rfl, rfl⟩,
   by decide⟩

/-- C8 amended: with no recency floor, no field projection and no cleaning
(and a schema with distinct column names), feeding a completed run's output
back in as the sole input yields the same record set: the rows reread
unchanged, every key is already unique, so each record re-dedupes to itself
and the second output is a permutation of the first. -/
theorem claim8_amended_idempotent_without_projection
    {cfg : MergeConfig} {p : String} {ov oe ov2 oe2 : Bool}
    {contents : String → List Row} {out out2 : List Row}
    (hnn : (cfg.schema.map Prod.fst).Nodup)
    (hfloor : cfg.latestMin = none)
    (hinc : cfg.fieldnamesInclude = none) (hexc : cfg.fieldnamesExclude = none)
    (hrun1 : mergeFilesRel cfg ov false false oe contents (.written out))
    (hrun2 : mergeFilesRel { cfg with inPaths := .one p } ov2 false false oe2
      (fun _ => out) (.written out2)) :
    out2.Perm out := by
  obtain ⟨ded, o2, proj, hd, hs, hp, hout⟩ := mergeFilesRel_written_elim hrun1
  have hproj : proj = o2 := projectStage_none_none hinc hexc hp
  have houteq : out = o2 := by
    rw [hout, hproj]
    rfl
  have hkeys : (out.map (keyTuple cfg.keyCol.toList)).Nodup := by
    obtain ⟨s1, ⟨hs1perm, hs1sorted⟩, hdperm⟩ := hd
    have hperm2 : out.Perm (keepFirstBy (keyTuple cfg.keyCol.toList) s1) := by
      rw [houteq]
      exact (sortStageRel_perm hs).trans hdperm
    exact ((hperm2.map (keyTuple cfg.keyCol.toList)).nodup_iff).mpr
      (keepFirstBy_keys_nodup _ _)
  have hfix : ∀ r ∈ out, normalizeRow cfg.schema r = some r := by
    intro r hr
    have hr2 : r ∈ o2 := houteq ▸ hr
    have hcand := stage_mem_candidate hd hs hr2
    have hing : r ∈ ingest cfg.schema cfg.inPaths.toList contents :=
      (List.mem_filter.mp (by simpa [candidateRows, filterStage] using hcand)).1
    exact ingest_fixed hnn hing
  have hcand2 : candidateRows { cfg with inPaths := .one p } (fun _ => out) = out := by
    show filterStage { cfg with inPaths := .one p }
      (([p].flatMap (fun _ => out)).filterMap (normalizeRow cfg.schema)) = out
    rw [show [p].flatMap (fun _ => out) = out by simp, filterMap_fixed out hfix]
    refine List.filter_eq_self.mpr ?_
    intro r _
    show passesFilter { cfg with inPaths := .one p } r = true
    unfold passesFilter
    rw [show ({ cfg with inPaths := OneOrMany.one p } : MergeConfig).latestMin = none from hfloor]
  obtain ⟨ded2, o22, proj2, hd2, hs2, hp2, hout2⟩ := mergeFilesRel_written_elim hrun2
  have hproj2 : proj2 = o22 :=
    projectStage_none_none
      (show ({ cfg with inPaths := OneOrMany.one p } : MergeConfig).fieldnamesInclude = none from hinc)
      (show ({ cfg with inPaths := OneOrMany.one p } : MergeConfig).fieldnamesExclude = none from hexc)
      hp2
  have hout2eq : out2 = o22 := by
    rw [hout2, hproj2]
    rfl
  obtain ⟨s1b, ⟨hs1bperm, _⟩, hdperm2⟩ := hd2
  rw [hcand2] at hs1bperm
  have hkeys2 :
      (s1b.map (keyTuple ({ cfg with inPaths := OneOrMany.one p } : MergeConfig).keyCol.toList)).Nodup := by
    show (s1b.map (keyTuple cfg.keyCol.toList)).Nodup
    exact ((hs1bperm.map _).nodup_iff).mpr hkeys
  have hkf := keepFirstBy_of_nodup _ _ hkeys2
  have h1 : o22.Perm ded2 := sortStageRel_perm hs2
  have h2 : ded2.Perm s1b := hkf ▸ hdperm2
  rw [hout2eq]
  exact h1.trans (h2.trans hs1bperm)

/-- Witness for the amended C8: a concrete single-record run fed back in
reproduces itself. -/
theorem claim8_amended_idempotent_without_projection_witness :
    ([rowT5] : List Row).Perm [rowT5] :=
  @claim8_amended_idempotent_without_projection cfgBase "q" true false true false
    (fun _ => [rowT5]) [rowT5] [rowT5] (by decide) rfl rfl rfl
    ⟨[rowT5], [rowT5], ⟨[rowT5], ⟨by decide, by decide⟩, by decide⟩, rfl, rfl⟩
    ⟨[rowT5], [rowT5], ⟨[rowT5], ⟨by decide, by decide⟩, by decide⟩, rfl, rfl⟩

end BoardGameMerger
